import Mathlib

/-!
Shallow embedding of the MDL scoring core of `fastautoml/fastautoml.py`
(single-file repository, 3432 lines).

Python floats are modelled by exact arithmetic: `ℝ` where transcendental
functions occur (`math.sqrt`, `math.pow`), `ℚ` elsewhere so that concrete
instances evaluate by `decide`.  Machine rounding is outside the spec's
guarantees ("no numerical-precision guarantees beyond standard
floating-point arithmetic").  External collaborators (the byte compressor,
the sklearn estimators) are opaque capabilities: only the lengths and
scores they produce enter the embedded functions, as parameters.
-/

namespace FastAutoML

/-- Cantor pairing as computed by `_unique_count` on line 112
(`x = (x1 + x2) * (x1 + x2 + 1) / 2 + x2`), read over ℕ: the float
division by 2 is exact because `s * (s + 1)` is always even. -/
def pair (a b : ℕ) : ℕ := (a + b) * (a + b + 1) / 2 + b

/-- Triangular number `s * (s + 1) / 2`, the diagonal base of `pair`. -/
def tri (s : ℕ) : ℕ := s * (s + 1) / 2

/-- The zero-guard of `Nescience.nescience` (lines 2014-2021): each of
`surfeit`, `inaccuracy`, `miscoding` equal to 0 is replaced; the source
literal is `10e-6`, i.e. `1e-5`.  Scores are modelled in ℚ so the guard
is executable; only the final aggregation formula needs ℝ. -/
def clampZero (x : ℚ) : ℚ := if x = 0 then 10e-6 else x

/-- The six aggregation methods `Nescience.nescience` dispatches on
(string `self.method`, lines 2029-2050).  The source has no `else`
branch: a string outside these six would leave the local `nescience`
unbound, so the six-way closed type is the faithful domain. -/
inductive NMethod where
  | Euclid
  | Arithmetic
  | Geometric
  | Product
  | Addition
  | Harmonic
deriving DecidableEq

/-- Tail of `Nescience.nescience` (lines 2012-2053), applied to the three
component scores once they have been computed: zero scores are clamped by
`clampZero`, a surfeit strictly below inaccuracy is forced to 1
(line 2024-2026), then the configured aggregation formula is applied
(`math.sqrt` becomes `Real.sqrt`, `math.pow(x, 1/3)` becomes `rpow`;
the result lives in ℝ, hence `noncomputable`). -/
noncomputable def nescienceCombine (method : NMethod)
    (miscoding inaccuracy surfeit : ℚ) : ℝ :=
  let s0 := clampZero surfeit
  let i := clampZero inaccuracy
  let m := clampZero miscoding
  let s : ℚ := if s0 < i then 1 else s0
  match method with
  | .Euclid => Real.sqrt ((m : ℝ) ^ 2 + (i : ℝ) ^ 2 + (s : ℝ) ^ 2)
  | .Arithmetic => ((m : ℝ) + (i : ℝ) + (s : ℝ)) / 3
  | .Geometric => ((m : ℝ) * (i : ℝ) * (s : ℝ)) ^ ((1 : ℝ) / 3)
  | .Product => (m : ℝ) * (i : ℝ) * (s : ℝ)
  | .Addition => (m : ℝ) + (i : ℝ) + (s : ℝ)
  | .Harmonic => 3 / (1 / (m : ℝ) + 1 / (i : ℝ) + 1 / (s : ℝ))

/-- `Surfeit.surfeit_string` (lines 1019-1056) as a function of the
stored target code length `len_y = self.len_y_`, the compressed length
`km = len(compressed)` and the original encoded length
`lm = len(emodel)`.  The compressor itself is the opaque external
capability that produced `km`; everything after the `compress` call is
this arithmetic. -/
def surfeit_string (len_y : ℚ) (km lm : ℕ) : ℚ :=
  if km > lm then 1 - 3 / 4
  else if len_y < (km : ℚ) then 1 - len_y / (lm : ℚ)
  else 1 - (km : ℚ) / (lm : ℚ)

/-- Lines 327-330 of `Miscoding.fit`: `adjusted_ = 1 - regular_`,
divided by its sum whenever that sum is non-zero. -/
def adjustedOf (regular : List ℚ) : List ℚ :=
  let a := regular.map (fun x => 1 - x)
  if a.sum ≠ 0 then a.map (fun x => x / a.sum) else a

/-- Lines 332-335 of `Miscoding.fit`:
`partial_ = adjusted_ - regular_ / np.sum(regular_)` when
`np.sum(regular_) != 0`, otherwise `partial_ = adjusted_`
(numpy subtraction and division are elementwise). -/
def partialOf (regular : List ℚ) : List ℚ :=
  if regular.sum ≠ 0 then
    List.zipWith (fun a x => a - x) (adjustedOf regular)
      (regular.map (fun x => x / regular.sum))
  else adjustedOf regular

/-- `np.dot` of two equal-length vectors. -/
def dot (u v : List ℚ) : ℚ := (List.zipWith (fun a b => a * b) u v).sum

/-- `Miscoding.miscoding_subset` (lines 479-503): with `pvec` the stored
`partial_` vector, `top_mscd = 1 + np.sum(partial_[partial_ < 0])`,
`miscoding = top_mscd - np.dot(subset, partial_)`, floored at 0. -/
def miscoding_subset (pvec subset : List ℚ) : ℚ :=
  let top_mscd := 1 + (pvec.filter (fun x => decide (x < 0))).sum
  let mscd := top_mscd - dot subset pvec
  if mscd < 0 then 0 else mscd

/-- Python slice `a[:-i]` as used on lines 395 and 398 of
`Miscoding.cross_miscoding` (`new_y = new_y[:-i]`, `new_x = new_x[:-i]`):
for `i = 0` the slice is `a[:0]`, the empty vector, not the full one. -/
def pyDropLast {α : Type} (l : List α) (i : ℕ) : List α :=
  if i = 0 then [] else l.take (l.length - i)

/-- Outcome of `Miscoding.cross_miscoding`: a returned vector, the
`NameError` Python raises when an unbound local is read, or the
`ValueError` raised for an unknown mode. -/
inductive CrossOutcome where
  | ok (v : List ℚ)
  | nameError
  | invalidMode
deriving DecidableEq

/-- Mode dispatch of `Miscoding.cross_miscoding` (lines 377-435) applied
to the computed `regular` lag vector.  The `'regular'` branch returns the
vector, the `'adjusted'` branch inverts and renormalises exactly as
`adjustedOf`.  In the `'partial'` branch (lines 422-429) the source reads
the local variable `adjusted`, which is assigned only inside the
`'adjusted'` branch (line 416) and that branch returns: the read is an
unbound local and Python raises `NameError`.  Unknown modes raise
`ValueError` at the top of the function (lines 379-382). -/
def cross_miscoding_mode (mode : String) (regular : List ℚ) : CrossOutcome :=
  if mode = "regular" then .ok regular
  else if mode = "adjusted" then .ok (adjustedOf regular)
  else if mode = "partial" then .nameError
  else .invalidMode

/-- The classifier families tried by `AutoClassifier.fit`
(lines 2089-2095), in their fixed order. -/
inductive ClfFamily where
  | multinomialNB
  | decisionTreeClassifier
  | linearSVC
  | svc
  | mlpClassifier
deriving DecidableEq

/-- `self.classifiers_` of `AutoClassifier.fit` (lines 2089-2095). -/
def classifiers : List ClfFamily :=
  [.multinomialNB, .decisionTreeClassifier, .linearSVC, .svc, .mlpClassifier]

/-- The skip guard of `AutoClassifier.fit` (lines 2119-2122): a family is
evaluated unless it is `MultinomialNB` while `X` contains a negative
value (`if clf == self.MultinomialNB and not (self.X_>=0).all():
continue`); the skip is a `continue`, not an exception.  `X` is the
flattened feature matrix. -/
def evaluatedFamilies (X : List ℚ) : List ClfFamily :=
  classifiers.filter
    (fun c => !(c == .multinomialNB && !(X.all (fun v => decide (0 ≤ v)))))

/-- The incumbent-update loop of `AutoClassifier.fit` (lines 2106-2132):
the state `(nsc, stored family index)` starts at `(1, none)`
(`nsc = 1; self.model_ = None; self.viu_ = None`) and a family's score
replaces the incumbent only when strictly smaller (`if new_nsc < nsc`).
`k` is the index of the next family's score. -/
def searchLoop : ℕ → ℚ × Option ℕ → List ℚ → ℚ × Option ℕ
  | _, st, [] => st
  | k, st, s :: rest =>
    if s < st.1 then searchLoop (k + 1) (s, some k) rest
    else searchLoop (k + 1) st rest

/-- The whole family loop of `AutoClassifier.fit` with `auto=True`, as a
function of the scores of the evaluated families. -/
def autoFitSearch (scores : List ℚ) : ℚ × Option ℕ := searchLoop 0 (1, none) scores

/- ------------------------------------------------------------------ -/
/- Helper lemmas -/
/- ------------------------------------------------------------------ -/

theorem two_mul_tri (s : ℕ) : 2 * tri s = s * (s + 1) :=
  Nat.mul_div_cancel' (Nat.even_mul_succ_self s).two_dvd

theorem tri_succ (s : ℕ) : tri (s + 1) = tri s + (s + 1) := by
  have ha := two_mul_tri s
  have hb := two_mul_tri (s + 1)
  have h2 : 2 * tri (s + 1) = 2 * (tri s + (s + 1)) := by
    calc 2 * tri (s + 1) = (s + 1) * (s + 1 + 1) := hb
      _ = s * (s + 1) + 2 * (s + 1) := by ring
      _ = 2 * tri s + 2 * (s + 1) := by rw [ha]
      _ = 2 * (tri s + (s + 1)) := by ring
  omega

theorem tri_mono {s t : ℕ} (h : s ≤ t) : tri s ≤ tri t :=
  Nat.div_le_div_right (Nat.mul_le_mul h (by omega))

theorem tri_add_lt {s t : ℕ} (h : s < t) : tri s + s < tri t := by
  have h1 : tri (s + 1) ≤ tri t := tri_mono h
  rw [tri_succ] at h1
  omega

theorem pair_eq_tri (a b : ℕ) : pair a b = tri (a + b) + b := rfl

theorem pair_inj_aux {a b a' b' : ℕ} (h : pair a b = pair a' b') :
    a + b = a' + b' := by
  rcases Nat.lt_trichotomy (a + b) (a' + b') with hlt | heq | hgt
  · exfalso
    have h1 : pair a b < pair a' b' := by
      rw [pair_eq_tri, pair_eq_tri]
      have h2 : tri (a + b) + b ≤ tri (a + b) + (a + b) := by omega
      have h3 : tri (a + b) + (a + b) < tri (a' + b') := tri_add_lt hlt
      omega
    omega
  · exact heq
  · exfalso
    have h1 : pair a' b' < pair a b := by
      rw [pair_eq_tri, pair_eq_tri]
      have h2 : tri (a' + b') + b' ≤ tri (a' + b') + (a' + b') := by omega
      have h3 : tri (a' + b') + (a' + b') < tri (a + b) := tri_add_lt hgt
      omega
    omega

theorem clampZero_of_ne {x : ℚ} (hx : x ≠ 0) : clampZero x = x := if_neg hx

theorem clampZero_ne_zero (x : ℚ) : clampZero x ≠ 0 := by
  unfold clampZero
  split
  · norm_num
  · assumption

theorem clampZero_idem (x : ℚ) : clampZero (clampZero x) = clampZero x :=
  clampZero_of_ne (clampZero_ne_zero x)

theorem sum_map_div (l : List ℚ) (c : ℚ) :
    (l.map (fun x => x / c)).sum = l.sum / c := by
  induction l with
  | nil => simp
  | cons a l ih => simp [ih, add_div]

theorem sum_nonneg_zero :
    ∀ l : List ℚ, (∀ x ∈ l, 0 ≤ x) → l.sum = 0 → ∀ x ∈ l, x = 0 := by
  intro l
  induction l with
  | nil => simp
  | cons a l ih =>
    intro h hs
    have ha : 0 ≤ a := h a (List.mem_cons_self a l)
    have hl : ∀ x ∈ l, 0 ≤ x := fun x hx => h x (List.mem_cons_of_mem a hx)
    have hlsum : 0 ≤ l.sum := List.sum_nonneg hl
    rw [List.sum_cons] at hs
    have ha0 : a = 0 := by linarith
    have hs0 : l.sum = 0 := by linarith
    intro x hx
    rcases List.mem_cons.1 hx with rfl | hx'
    · exact ha0
    · exact ih hl hs0 x hx'

theorem sum_zipWith_sub :
    ∀ A B : List ℚ, A.length = B.length →
      (List.zipWith (fun a x => a - x) A B).sum = A.sum - B.sum := by
  intro A
  induction A with
  | nil =>
    intro B h
    cases B with
    | nil => simp
    | cons b B => simp at h
  | cons a A ih =>
    intro B h
    cases B with
    | nil => simp at h
    | cons b B =>
      have hlen : A.length = B.length := by simpa using h
      simp only [List.zipWith_cons_cons, List.sum_cons, ih B hlen]
      ring

theorem adjustedOf_of_ne {r : List ℚ} (hs : (r.map (fun x => 1 - x)).sum ≠ 0) :
    adjustedOf r
      = (r.map (fun x => 1 - x)).map (fun x => x / (r.map (fun x => 1 - x)).sum) := by
  simp only [adjustedOf]
  rw [if_pos hs]

theorem adjustedOf_of_eq {r : List ℚ} (hs : (r.map (fun x => 1 - x)).sum = 0) :
    adjustedOf r = r.map (fun x => 1 - x) := by
  simp only [adjustedOf]
  rw [if_neg (fun hne => hne hs)]

theorem adjustedOf_sum_of_ne {r : List ℚ} (hs : (r.map (fun x => 1 - x)).sum ≠ 0) :
    (adjustedOf r).sum = 1 := by
  rw [adjustedOf_of_ne hs, sum_map_div, div_self hs]

theorem adjustedOf_length (r : List ℚ) : (adjustedOf r).length = r.length := by
  simp only [adjustedOf]
  split <;> simp

theorem searchLoop_of_ge (rest : List ℚ) :
    ∀ (k : ℕ) (nsc : ℚ) (b : Option ℕ),
      (∀ s ∈ rest, nsc ≤ s) → searchLoop k (nsc, b) rest = (nsc, b) := by
  induction rest with
  | nil => intro k nsc b _; rfl
  | cons s rest ih =>
    intro k nsc b h
    have h1 : nsc ≤ s := h s (List.mem_cons_self s rest)
    show (if s < nsc then searchLoop (k + 1) (s, some k) rest
          else searchLoop (k + 1) (nsc, b) rest) = (nsc, b)
    rw [if_neg (not_lt.2 h1)]
    exact ih (k + 1) nsc b (fun t ht => h t (List.mem_cons_of_mem _ ht))

theorem searchLoop_of_lt (rest : List ℚ) :
    ∀ (k : ℕ) (nsc : ℚ) (b : Option ℕ),
      (∃ s ∈ rest, s < nsc) →
      ∃ j v, rest.get? j = some v ∧ v < nsc
        ∧ searchLoop k (nsc, b) rest = (v, some (k + j))
        ∧ (∀ s ∈ rest, v ≤ s)
        ∧ (∀ i w, i < j → rest.get? i = some w → v < w) := by
  induction rest with
  | nil =>
    intro k nsc b h
    exact absurd h (by simp)
  | cons s rest ih =>
    intro k nsc b h
    by_cases hs : s < nsc
    · by_cases hrest : ∀ t ∈ rest, s ≤ t
      · refine ⟨0, s, rfl, hs, ?_, ?_, ?_⟩
        · show (if s < nsc then searchLoop (k + 1) (s, some k) rest
                else searchLoop (k + 1) (nsc, b) rest) = (s, some (k + 0))
          rw [if_pos hs, searchLoop_of_ge rest (k + 1) s (some k) hrest]
          rfl
        · intro t ht
          rcases List.mem_cons.1 ht with rfl | ht'
          · exact le_refl t
          · exact hrest t ht'
        · intro i w hi _
          omega
      · push_neg at hrest
        rcases ih (k + 1) s (some k) hrest with ⟨j, v, hget, hvs, hloop, hmin, hearly⟩
        refine ⟨j + 1, v, by simpa using hget, lt_trans hvs hs, ?_, ?_, ?_⟩
        · show (if s < nsc then searchLoop (k + 1) (s, some k) rest
                else searchLoop (k + 1) (nsc, b) rest) = (v, some (k + (j + 1)))
          rw [if_pos hs, hloop]
          have : k + 1 + j = k + (j + 1) := by omega
          rw [this]
        · intro t ht
          rcases List.mem_cons.1 ht with rfl | ht'
          · exact hvs.le
          · exact hmin t ht'
        · intro i w hi hw
          cases i with
          | zero =>
            have hws : w = s := by simpa using hw.symm
            subst hws
            exact hvs
          | succ i' =>
            exact hearly i' w (by omega) (by simpa using hw)
    · have hge : nsc ≤ s := not_lt.1 hs
      have hex : ∃ t ∈ rest, t < nsc := by
        rcases h with ⟨t, ht, htlt⟩
        rcases List.mem_cons.1 ht with rfl | ht'
        · exact absurd htlt (not_lt.2 hge)
        · exact ⟨t, ht', htlt⟩
      rcases ih (k + 1) nsc b hex with ⟨j, v, hget, hvn, hloop, hmin, hearly⟩
      refine ⟨j + 1, v, by simpa using hget, hvn, ?_, ?_, ?_⟩
      · show (if s < nsc then searchLoop (k + 1) (s, some k) rest
              else searchLoop (k + 1) (nsc, b) rest) = (v, some (k + (j + 1)))
        rw [if_neg hs, hloop]
        have : k + 1 + j = k + (j + 1) := by omega
        rw [this]
      · intro t ht
        rcases List.mem_cons.1 ht with rfl | ht'
        · exact le_trans hvn.le hge
        · exact hmin t ht'
      · intro i w hi hw
        cases i with
        | zero =>
          have hws : w = s := by simpa using hw.symm
          subst hws
          exact lt_of_lt_of_le hvn hge
        | succ i' =>
          exact hearly i' w (by omega) (by simpa using hw)

/- ------------------------------------------------------------------ -/
/- Claim theorems -/
/- ------------------------------------------------------------------ -/

/-- C1 counterexample: at the fixed point m = 1 (which satisfies
0 < m ≤ 1) the 'Addition' aggregation of `Nescience.nescience` returns
3, not the common value 1, so the six methods do not all return m. -/
theorem c1_counterexample :
    nescienceCombine .Addition 1 1 1 = 3 ∧ (3 : ℝ) ≠ 1 := by
  constructor
  · norm_num [nescienceCombine, clampZero]
  · norm_num

/-- C1 (amended): at the fixed point miscoding = inaccuracy = surfeit = m
with 0 < m ≤ 1, `Nescience.nescience` returns m under the three
mean-based aggregations ('Arithmetic', 'Geometric', 'Harmonic'), while
'Euclid' returns √3·m, 'Product' returns m³ and 'Addition' returns 3m. -/
theorem c1_fixed_point (m : ℚ) (h0 : 0 < m) (_h1 : m ≤ 1) :
    nescienceCombine .Arithmetic m m m = (m : ℝ)
    ∧ nescienceCombine .Geometric m m m = (m : ℝ)
    ∧ nescienceCombine .Harmonic m m m = (m : ℝ)
    ∧ nescienceCombine .Euclid m m m = Real.sqrt 3 * (m : ℝ)
    ∧ nescienceCombine .Product m m m = (m : ℝ) ^ 3
    ∧ nescienceCombine .Addition m m m = 3 * (m : ℝ) := by
  have hne : m ≠ 0 := ne_of_gt h0
  have hcl : clampZero m = m := clampZero_of_ne hne
  have hmR : (0 : ℝ) < (m : ℝ) := by exact_mod_cast h0
  have hmRne : (m : ℝ) ≠ 0 := ne_of_gt hmR
  refine ⟨?_, ?_, ?_, ?_, ?_, ?_⟩
  · simp only [nescienceCombine, hcl, if_neg (lt_irrefl m)]
    ring
  · simp only [nescienceCombine, hcl, if_neg (lt_irrefl m)]
    rw [show ((m : ℝ) * (m : ℝ) * (m : ℝ)) = (m : ℝ) ^ (3 : ℕ) by ring]
    rw [← Real.rpow_natCast (m : ℝ) 3, ← Real.rpow_mul hmR.le]
    rw [show ((3 : ℕ) : ℝ) * ((1 : ℝ) / 3) = 1 by norm_num, Real.rpow_one]
  · simp only [nescienceCombine, hcl, if_neg (lt_irrefl m)]
    rw [show (1 / (m : ℝ) + 1 / (m : ℝ) + 1 / (m : ℝ)) = 3 / (m : ℝ) by ring]
    field_simp
  · simp only [nescienceCombine, hcl, if_neg (lt_irrefl m)]
    rw [show ((m : ℝ) ^ 2 + (m : ℝ) ^ 2 + (m : ℝ) ^ 2) = 3 * (m : ℝ) ^ 2 by ring]
    rw [Real.sqrt_mul (by norm_num : (0 : ℝ) ≤ 3), Real.sqrt_sq hmR.le]
  · simp only [nescienceCombine, hcl, if_neg (lt_irrefl m)]
    ring
  · simp only [nescienceCombine, hcl, if_neg (lt_irrefl m)]
    ring

/-- C1 witness: the amended fixed-point theorem evaluated at m = 1/2. -/
theorem c1_witness :
    nescienceCombine .Arithmetic (1/2) (1/2) (1/2) = ((1/2 : ℚ) : ℝ)
    ∧ nescienceCombine .Geometric (1/2) (1/2) (1/2) = ((1/2 : ℚ) : ℝ)
    ∧ nescienceCombine .Harmonic (1/2) (1/2) (1/2) = ((1/2 : ℚ) : ℝ)
    ∧ nescienceCombine .Euclid (1/2) (1/2) (1/2) = Real.sqrt 3 * ((1/2 : ℚ) : ℝ)
    ∧ nescienceCombine .Product (1/2) (1/2) (1/2) = ((1/2 : ℚ) : ℝ) ^ 3
    ∧ nescienceCombine .Addition (1/2) (1/2) (1/2) = 3 * ((1/2 : ℚ) : ℝ) :=
  c1_fixed_point (1/2) (by norm_num) (by norm_num)

/-- C2 counterexample: with compressed length km = 10 equal to the
original length lm = 10 (so km ≥ lm) and stored target code length 5,
`Surfeit.surfeit_string` returns 1/2, not the claimed floor 0.25: the
floor applies only when km is strictly greater than lm. -/
theorem c2_counterexample :
    (10 : ℕ) ≥ 10 ∧ surfeit_string 5 10 10 = 1/2 ∧ (1/2 : ℚ) ≠ 1/4 := by
  refine ⟨le_refl 10, ?_, by norm_num⟩
  norm_num [surfeit_string]

/-- C2 (amended): `Surfeit.surfeit_string` returns 0.25 exactly when the
compressed length km is strictly greater than the original length lm;
otherwise 1 − len_y/lm when the stored target code length is smaller
than the compressed length, and 1 − km/lm otherwise. -/
theorem c2_surfeit_string_cases (len_y : ℚ) (km lm : ℕ) :
    (lm < km → surfeit_string len_y km lm = 1/4)
    ∧ (km ≤ lm → len_y < (km : ℚ) → surfeit_string len_y km lm = 1 - len_y / (lm : ℚ))
    ∧ (km ≤ lm → (km : ℚ) ≤ len_y → surfeit_string len_y km lm = 1 - (km : ℚ) / (lm : ℚ)) := by
  refine ⟨?_, ?_, ?_⟩
  · intro h
    rw [surfeit_string, if_pos h]
    norm_num
  · intro h1 h2
    rw [surfeit_string, if_neg (not_lt.2 h1), if_pos h2]
  · intro h1 h2
    rw [surfeit_string, if_neg (not_lt.2 h1), if_neg (not_lt.2 h2)]

/-- C2 witness: the three branches of the amended characterization at
concrete lengths (km, lm) = (12, 10), (10, 10) and (10, 10) with stored
target code lengths 5, 5 and 20. -/
theorem c2_witness :
    surfeit_string 5 12 10 = 1/4
    ∧ surfeit_string 5 10 10 = 1 - 5 / ((10 : ℕ) : ℚ)
    ∧ surfeit_string 20 10 10 = 1 - ((10 : ℕ) : ℚ) / ((10 : ℕ) : ℚ) :=
  ⟨(c2_surfeit_string_cases 5 12 10).1 (by norm_num),
   (c2_surfeit_string_cases 5 10 10).2.1 (by norm_num) (by norm_num),
   (c2_surfeit_string_cases 20 10 10).2.2 (by norm_num) (by norm_num)⟩

/-- C3 counterexample: for the fitted regular vector [1] the sum of the
regular vector is 1 ≠ 0, yet the adjusted vector is [0], which sums to 0
and not to 1: the branch condition is the sum of 1 − regular, not the
sum of regular. -/
theorem c3_counterexample :
    List.sum [(1 : ℚ)] ≠ 0
    ∧ (adjustedOf [(1 : ℚ)]).sum ≠ 1
    ∧ adjustedOf [(1 : ℚ)] = [0] := by
  have h : adjustedOf [(1 : ℚ)] = [0] := by
    simp only [adjustedOf]
    norm_num
  refine ⟨by norm_num, ?_, h⟩
  rw [h]
  norm_num

/-- C3 (amended): for every fitted regular vector with entries in [0,1],
the adjusted vector sums to 1 unless the inverted vector 1 − regular
sums to 0, in which case every regular entry equals 1 and the adjusted
vector is all-zero. -/
theorem c3_adjusted_sum (regular : List ℚ)
    (h : ∀ x ∈ regular, 0 ≤ x ∧ x ≤ 1) :
    (adjustedOf regular).sum = 1
    ∨ ((∀ x ∈ regular, x = 1) ∧ ∀ y ∈ adjustedOf regular, y = 0) := by
  by_cases hs : (regular.map (fun x => 1 - x)).sum = 0
  · right
    have hnn : ∀ y ∈ regular.map (fun x => 1 - x), 0 ≤ y := by
      intro y hy
      rcases List.mem_map.1 hy with ⟨x, hx, rfl⟩
      have := (h x hx).2
      linarith
    have hzero := sum_nonneg_zero _ hnn hs
    constructor
    · intro x hx
      have := hzero (1 - x) (List.mem_map_of_mem _ hx)
      linarith
    · intro y hy
      rw [adjustedOf_of_eq hs] at hy
      exact hzero y hy
  · left
    exact adjustedOf_sum_of_ne hs

/-- C3 witness: the amended invariant at regular = [1/2, 1/4], whose
adjusted vector sums to 1. -/
theorem c3_witness :
    (adjustedOf [(1/2 : ℚ), 1/4]).sum = 1
    ∨ ((∀ x ∈ [(1/2 : ℚ), 1/4], x = 1) ∧ ∀ y ∈ adjustedOf [(1/2 : ℚ), 1/4], y = 0) :=
  c3_adjusted_sum [(1/2 : ℚ), 1/4] (by norm_num [List.forall_mem_cons])

/-- C4: requesting mode 'partial' from `Miscoding.cross_miscoding` reads
the local `adjusted`, which is assigned only inside the returned-from
'adjusted' branch, so Python raises NameError instead of returning the
lag vector in partial mode; moreover the slice `[:-i]` used to drop the
trailing lag samples empties the whole vector at lag i = 0 instead of
keeping all samples. -/
theorem c4_partial_mode_raises (regular : List ℚ) (v : List ℚ) :
    cross_miscoding_mode "partial" regular = CrossOutcome.nameError
    ∧ pyDropLast v 0 = [] := by
  constructor
  · rfl
  · rfl

/-- C5 counterexample: a zero-valued component score is replaced by the
source literal `10e-6`, which is 1e-5 = 1/100000, not the claimed
epsilon 1e-6. -/
theorem c5_counterexample :
    clampZero 0 = 10e-6 ∧ (10e-6 : ℚ) = 1/100000 ∧ clampZero 0 ≠ 1e-6 := by
  have h0 : clampZero 0 = 10e-6 := if_pos rfl
  refine ⟨h0, by norm_num, ?_⟩
  rw [h0]
  norm_num

/-- C5 (amended): in `Nescience.nescience` each component score equal to
exactly 0 is replaced by 10e-6 (= 1e-5) before aggregation, non-zero
scores pass the zero-guard unchanged, and the aggregated value depends
only on the guarded scores (the surfeit may afterwards still be forced
to 1 when it is below the inaccuracy). -/
theorem c5_clamp (meth : NMethod) (m i s : ℚ) :
    nescienceCombine meth m i s
      = nescienceCombine meth (clampZero m) (clampZero i) (clampZero s)
    ∧ clampZero 0 = 10e-6
    ∧ (∀ x : ℚ, x ≠ 0 → clampZero x = x) := by
  refine ⟨?_, if_pos rfl, fun x hx => clampZero_of_ne hx⟩
  simp only [nescienceCombine, clampZero_idem]

/-- C5 witness: the amended guard behaviour evaluated at scores
(0, 1/2, 3/4) under the default 'Harmonic' method and at the non-zero
score 7. -/
theorem c5_witness :
    nescienceCombine .Harmonic 0 (1/2) (3/4)
      = nescienceCombine .Harmonic (clampZero 0) (clampZero (1/2)) (clampZero (3/4))
    ∧ clampZero 0 = 10e-6
    ∧ clampZero (7 : ℚ) = 7 :=
  ⟨(c5_clamp .Harmonic 0 (1/2) (3/4)).1,
   (c5_clamp .Harmonic 0 (1/2) (3/4)).2.1,
   (c5_clamp .Harmonic 0 (1/2) (3/4)).2.2 7 (by norm_num)⟩

/-- C6: the pairing function pair(a,b) = (a+b)(a+b+1)/2 + b used by
`_unique_count` to combine two discretized/relabeled integer vectors is
injective over ℕ×ℕ. -/
theorem c6_pair_injective (a b a' b' : ℕ) (h : pair a b = pair a' b') :
    a = a' ∧ b = b' := by
  have hs := pair_inj_aux h
  rw [pair_eq_tri, pair_eq_tri, hs] at h
  constructor <;> omega

/-- C6 witness: injectivity applied at the concrete pair (2, 3), where
pair 2 3 = 18. -/
theorem c6_witness : (2 : ℕ) = 2 ∧ (3 : ℕ) = 3 :=
  c6_pair_injective 2 3 2 3 (by decide)

/-- C7: `Miscoding.miscoding_subset` returns
max(0, top − dot(subset, partial)) with top = 1 + the sum of the
negative entries of the partial vector; in particular it is always
non-negative. -/
theorem c7_miscoding_subset (pvec subset : List ℚ) :
    miscoding_subset pvec subset
      = max 0 (1 + (pvec.filter (fun x => decide (x < 0))).sum - dot subset pvec)
    ∧ 0 ≤ miscoding_subset pvec subset := by
  have hkey : ∀ q : ℚ, (if q < 0 then (0 : ℚ) else q) = max 0 q := by
    intro q
    rcases lt_or_le q 0 with hq | hq
    · rw [if_pos hq, max_eq_left hq.le]
    · rw [if_neg (not_lt.2 hq), max_eq_right hq]
  have h1 : miscoding_subset pvec subset
      = max 0 (1 + (pvec.filter (fun x => decide (x < 0))).sum - dot subset pvec) :=
    hkey _
  exact ⟨h1, h1 ▸ le_max_left 0 _⟩

/-- C8 counterexample: with evaluated family scores [3/2, 2] the loop of
`AutoClassifier.fit` stores nothing (model_ and viu_ stay None, the
incumbent score stays at its initial value 1), although the family with
score 3/2 is the single best evaluated result. -/
theorem c8_counterexample :
    autoFitSearch [3/2, 2] = (1, none) ∧ (3/2 : ℚ) < 2 := by
  constructor
  · show searchLoop 0 (1, none) [3/2, 2] = (1, none)
    rw [searchLoop_of_ge]
    intro s hs
    rcases List.mem_cons.1 hs with rfl | hs'
    · norm_num
    · rcases List.mem_cons.1 hs' with rfl | hs''
      · norm_num
      · exact absurd hs'' (List.not_mem_nil s)
  · norm_num

/-- C8 (amended): after the family loop of `AutoClassifier.fit` with
auto=True, if every evaluated family scored ≥ 1 then the incumbent stays
(1, none) and no model is stored; otherwise the stored result is the
earliest family attaining the smallest score: its score is below 1, is
≤ every evaluated score, and is strictly smaller than every earlier
family's score (a strictly smaller score replaces the incumbent; ties
keep the earlier family). -/
theorem c8_search_best (scores : List ℚ) :
    ((∀ s ∈ scores, 1 ≤ s) ∧ autoFitSearch scores = (1, none))
    ∨ (∃ j v, scores.get? j = some v ∧ v < 1
        ∧ autoFitSearch scores = (v, some j)
        ∧ (∀ s ∈ scores, v ≤ s)
        ∧ (∀ i w, i < j → scores.get? i = some w → v < w)) := by
  by_cases h : ∀ s ∈ scores, 1 ≤ s
  · exact Or.inl ⟨h, searchLoop_of_ge scores 0 1 none h⟩
  · right
    push_neg at h
    rcases searchLoop_of_lt scores 0 1 none h with ⟨j, v, hget, hv, hloop, hmin, hearly⟩
    exact ⟨j, v, hget, hv, by simpa using hloop, hmin, hearly⟩

/-- C8 witness: the amended characterization evaluated on the concrete
score list [3/2, 1/2, 1/2, 1/4], where the loop stores index 3. -/
theorem c8_witness :
    ((∀ s ∈ [(3/2 : ℚ), 1/2, 1/2, 1/4], 1 ≤ s)
      ∧ autoFitSearch [(3/2 : ℚ), 1/2, 1/2, 1/4] = (1, none))
    ∨ (∃ j v, [(3/2 : ℚ), 1/2, 1/2, 1/4].get? j = some v ∧ v < 1
        ∧ autoFitSearch [(3/2 : ℚ), 1/2, 1/2, 1/4] = (v, some j)
        ∧ (∀ s ∈ [(3/2 : ℚ), 1/2, 1/2, 1/4], v ≤ s)
        ∧ (∀ i w, i < j → [(3/2 : ℚ), 1/2, 1/2, 1/4].get? i = some w → v < w)) :=
  c8_search_best [(3/2 : ℚ), 1/2, 1/2, 1/4]

/-- C9: when the flattened feature matrix contains a negative value, the
family loop of `AutoClassifier.fit` skips MultinomialNB via `continue`
(no exception) and evaluates exactly the remaining four classifier
families, in order. -/
theorem c9_skip_multinomialNB (X : List ℚ) (h : ∃ v ∈ X, v < 0) :
    evaluatedFamilies X
      = [.decisionTreeClassifier, .linearSVC, .svc, .mlpClassifier] := by
  have hall : X.all (fun v => decide (0 ≤ v)) = false := by
    rcases h with ⟨v, hv, hvneg⟩
    rw [List.all_eq_false]
    exact ⟨v, hv, by simpa using not_le.2 hvneg⟩
  simp only [evaluatedFamilies, hall, Bool.not_false, Bool.and_true]
  decide

/-- C9 witness: the skip evaluated at the concrete one-entry matrix
X = [-1]. -/
theorem c9_witness :
    evaluatedFamilies [(-1 : ℚ)]
      = [.decisionTreeClassifier, .linearSVC, .svc, .mlpClassifier] :=
  c9_skip_multinomialNB [(-1 : ℚ)] ⟨-1, by decide, by decide⟩

/-- C10: whenever the fitted regular vector has non-zero sum and the
inverted vector 1 − regular has non-zero sum, the partial vector of
`Miscoding.fit` sums to exactly 0. -/
theorem c10_partial_sum_zero (regular : List ℚ) (h1 : regular.sum ≠ 0)
    (h2 : (regular.map (fun x => 1 - x)).sum ≠ 0) :
    (partialOf regular).sum = 0 := by
  have hlen : (adjustedOf regular).length
      = (regular.map (fun x => x / regular.sum)).length := by
    rw [adjustedOf_length, List.length_map]
  simp only [partialOf]
  rw [if_pos h1, sum_zipWith_sub _ _ hlen, adjustedOf_sum_of_ne h2,
    sum_map_div, div_self h1]
  norm_num

/-- C10 witness: the partial vector of regular = [1/2, 1/4] sums to 0. -/
theorem c10_witness : (partialOf [(1/2 : ℚ), 1/4]).sum = 0 :=
  c10_partial_sum_zero [(1/2 : ℚ), 1/4] (by norm_num) (by norm_num)

end FastAutoML
